import Mathlib

/-!
Verification of the segment-grouping and sidecar-rendering pipeline of
`scripts/transcribe_sidecars.py`.

The Python source is shallowly embedded: floating-point seconds become
exact rationals (`ℚ`), Python dict segments become a structure with
`Option` fields for the keys the code reads with `.get`, and Python's
`round` (round-half-to-even) is modelled by `pyRound`.  Whitespace for
`re.sub(r"\s+", " ", ...)`, `str.split()` and `str.strip()` is modelled
by the ASCII whitespace class `[ \t\n\r\x0b\x0c]` (Unicode whitespace is
out of the modelled character set).
-/

set_option autoImplicit false
set_option maxRecDepth 4000

namespace Transcribe

/-- Python's `\s` / `str.isspace` on the modelled (ASCII) character set. -/
def isWS (c : Char) : Bool :=
  c = ' ' || c = '\t' || c = '\n' || c = '\r' || c = Char.ofNat 11 || c = Char.ofNat 12

/-- Python `text.replace("\n", " ")`. -/
def mapNL (l : List Char) : List Char :=
  l.map (fun c => if c = '\n' then ' ' else c)

/-- Python `re.sub(r"\s+", " ", text)`: each maximal run of whitespace becomes a
single space.  The flag records whether the previous character was
whitespace (i.e. we are inside a run that already emitted its space). -/
def collapseWS : Bool → List Char → List Char
  | _, [] => []
  | b, c :: rest =>
    if isWS c then
      if b then collapseWS true rest else ' ' :: collapseWS true rest
    else
      c :: collapseWS false rest

/-- Drop trailing characters satisfying `p`. -/
def dropWhileEnd (p : Char → Bool) (l : List Char) : List Char :=
  ((l.reverse).dropWhile p).reverse

/-- Python `str.strip()` on the modelled whitespace class. -/
def stripL (l : List Char) : List Char :=
  dropWhileEnd isWS (l.dropWhile isWS)

/-- Source `clean_text`: replace newlines by spaces, collapse
whitespace runs, strip the ends. -/
def clean_text (s : String) : String :=
  ⟨stripL (collapseWS false (mapNL s.data))⟩

/-- Helper for `word_count`: counts maximal non-whitespace runs; the flag
records whether we are currently inside a word. -/
def cwAux : Bool → List Char → Nat
  | _, [] => 0
  | inWord, c :: rest =>
    if isWS c then cwAux false rest
    else (if inWord then 0 else 1) + cwAux true rest

/-- Source `word_count`: `len(text.split())`, with `0` for the
empty string (Python `split()` drops empty chunks). -/
def word_count (s : String) : Nat :=
  cwAux false s.data

/-- Python's built-in `round` to the nearest integer, ties to even. -/
def pyRound (q : ℚ) : ℤ :=
  if q - ((⌊q⌋ : ℤ) : ℚ) < 1/2 then ⌊q⌋
  else if 1/2 < q - ((⌊q⌋ : ℤ) : ℚ) then ⌊q⌋ + 1
  else if ⌊q⌋ % 2 = 0 then ⌊q⌋ else ⌊q⌋ + 1

/-- Python's `f"{n:0wd}"` for a non-negative integer: the decimal digits,
left-padded with zeros to width `w`. -/
def padNum (w : Nat) (n : Nat) : String :=
  let d := (Nat.repr n).data
  ⟨List.replicate (w - d.length) '0' ++ d⟩

/-- Source `format_timestamp`: `max(0, int(round(seconds)))`
split into `HH:MM:SS` fields. -/
def format_timestamp (seconds : ℚ) : String :=
  let total_seconds : Nat := (max 0 (pyRound seconds)).toNat
  padNum 2 (total_seconds / 3600) ++ ":" ++ padNum 2 (total_seconds % 3600 / 60)
    ++ ":" ++ padNum 2 (total_seconds % 60)

/-- Source `format_srt_timestamp`: clamp to `0`, milliseconds
as `int(round((seconds - int(seconds)) * 1000))`, whole part split into
`HH:MM:SS`, comma separator before the `%03d` millisecond field.  (For a
clamped non-negative value, Python's `int` truncation is `⌊·⌋`.) -/
def format_srt_timestamp (seconds : ℚ) : String :=
  let s : ℚ := max 0 seconds
  let millis : Nat := (pyRound ((s - ((⌊s⌋ : ℤ) : ℚ)) * 1000)).toNat
  let total_seconds : Nat := (⌊s⌋).toNat
  padNum 2 (total_seconds / 3600) ++ ":" ++ padNum 2 (total_seconds % 3600 / 60)
    ++ ":" ++ padNum 2 (total_seconds % 60) ++ "," ++ padNum 3 millis

/-! ## Data model for the Grouper

A raw segment is a Python dict read with `seg.get(...)`: `Option` fields
model possibly-missing keys. -/

structure Seg where
  text : Option String
  start : Option ℚ
  stop : Option ℚ
  speaker : Option String
deriving DecidableEq, Repr

/-- A paragraph dict as built by `group_segments` (keys `speaker`,
`start`, `end`, `text`, `words`). -/
structure Para where
  speaker : String
  start : ℚ
  stop : ℚ
  text : String
  words : Nat
deriving DecidableEq, Repr

/-- Python `seg.get("speaker") or "SPEAKER_00"`: the `or` replaces any falsy
value (a missing key or the empty string) by the default label. -/
def effSpeaker (s : Seg) : String :=
  match s.speaker with
  | none => "SPEAKER_00"
  | some l => if l = "" then "SPEAKER_00" else l

/-- Python `float(seg.get("start", 0.0))`. -/
def startVal (s : Seg) : ℚ :=
  s.start.getD 0

/-- Python `float(seg.get("end", start))`. -/
def endVal (s : Seg) : ℚ :=
  s.stop.getD (startVal s)

/-- The paragraph dict opened from a segment (the two identical literal
dicts in `group_segments`). -/
def seedPara (s : Seg) : Para :=
  { speaker := effSpeaker s
    start := startVal s
    stop := endVal s
    text := clean_text (s.text.getD "")
    words := word_count (clean_text (s.text.getD "")) }

/-- The in-place extension of the open paragraph in the no-break branch. -/
def mergePara (c : Para) (s : Seg) : Para :=
  { c with
    text := c.text ++ " " ++ clean_text (s.text.getD "")
    stop := endVal s
    words := c.words + word_count (clean_text (s.text.getD "")) }

/-- The `should_break` condition of `group_segments`: speaker change, or
`gap >= gap_seconds`, or the open paragraph already at the word cap. -/
def should_break (current : Para) (speaker : String) (start gap_seconds : ℚ)
    (max_words : Nat) : Prop :=
  speaker ≠ current.speaker
    ∨ start - current.stop ≥ gap_seconds
    ∨ current.words ≥ max_words

instance (c : Para) (spk : String) (st g : ℚ) (m : Nat) :
    Decidable (should_break c spk st g m) := by
  unfold should_break; infer_instance

/-- The loop of `group_segments`: `grouped` is the list built so far,
`current` the open paragraph. -/
def group_go (g : ℚ) (m : Nat) : List Seg → List Para → Option Para → List Para
  | [], grouped, none => grouped
  | [], grouped, some c => grouped ++ [c]
  | seg :: rest, grouped, cur =>
    if clean_text (seg.text.getD "") = "" then
      group_go g m rest grouped cur
    else
      match cur with
      | none => group_go g m rest grouped (some (seedPara seg))
      | some c =>
        if should_break c (effSpeaker seg) (startVal seg) g m then
          group_go g m rest (grouped ++ [c]) (some (seedPara seg))
        else
          group_go g m rest grouped (some (mergePara c seg))

/-- Source `group_segments` (the optional progress callback is a
pure side channel and is not modelled). -/
def group_segments (segments : List Seg) (gap_seconds : ℚ) (max_words : Nat) :
    List Para :=
  group_go gap_seconds max_words segments [] none

/-! ## Speaker naming -/

/-- The loop of `map_speakers`: the insertion-ordered Python dict is an
association list extended at the back. -/
def map_speakers_go : List Para → List (String × String) → List (String × String)
  | [], mapping => mapping
  | para :: rest, mapping =>
    if (mapping.lookup para.speaker).isSome then
      map_speakers_go rest mapping
    else
      map_speakers_go rest
        (mapping ++ [(para.speaker, "Speaker " ++ Nat.repr (mapping.length + 1))])

/-- Source `map_speakers`. -/
def map_speakers (paragraphs : List Para) : List (String × String) :=
  map_speakers_go paragraphs []

/-- Modelled from the spec words for §4.3 (`assign_names`): the raw
speaker labels in order of first appearance. -/
def firstAppearance (seen : List String) : List Para → List String
  | [] => []
  | p :: rest =>
    if p.speaker ∈ seen then firstAppearance seen rest
    else p.speaker :: firstAppearance (p.speaker :: seen) rest

/-- Sequential display names `"Speaker n"`, `"Speaker n+1"`, … for a list
of labels. -/
def namesFrom : Nat → List String → List (String × String)
  | _, [] => []
  | n, l :: rest => (l, "Speaker " ++ Nat.repr n) :: namesFrom (n + 1) rest

/-- Modelled from the spec words for §4.3: each label not yet seen gets
the next sequential display name starting at `"Speaker 1"`, in
first-appearance order. -/
def assign_names_spec (paragraphs : List Para) : List (String × String) :=
  namesFrom 1 (firstAppearance [] paragraphs)

/-! ## Helper definitions used to state claims -/

/-- Word count a segment contributes (`word_count(clean_text(text))`). -/
def segWords (s : Seg) : Nat :=
  word_count (clean_text (s.text.getD ""))

/-- Maximum contributed word count over a segment list. -/
def maxSegWords (segs : List Seg) : Nat :=
  segs.foldr (fun s acc => max (segWords s) acc) 0

/-- Number of segments that survive cleaning (non-empty cleaned text). -/
def contributing (segs : List Seg) : Nat :=
  (segs.filter fun s => clean_text (s.text.getD "") != "").length

/-- Replace an explicit empty-string speaker label by a missing one. -/
def blankToNone (s : Seg) : Seg :=
  if s.speaker = some "" then { s with speaker := none } else s

/-- Make the defaults of `group_segments` explicit in a segment. -/
def fillDefaults (s : Seg) : Seg :=
  ⟨some (s.text.getD ""), some (startVal s), some (endVal s), some (effSpeaker s)⟩

/-- The first character, if any, is not whitespace. -/
def headNonWS (l : List Char) : Prop :=
  ∀ c, l.head? = some c → isWS c = false

/-- The last character, if any, is not whitespace. -/
def lastNonWS (l : List Char) : Prop :=
  ∀ c, l.getLast? = some c → isWS c = false

/-- Every whitespace character is a plain space. -/
def wsSpace (l : List Char) : Prop :=
  ∀ c ∈ l, isWS c = true → c = ' '

/-- No two adjacent whitespace characters. -/
def noAdj (l : List Char) : Prop :=
  l.Chain' fun a b => isWS a = false ∨ isWS b = false

/-! ## Sanity examples -/

example : clean_text "  hello \n\n world " = "hello world" := by decide
example : word_count "hello world" = 2 := by decide
example : word_count "" = 0 := by decide
example : pyRound (5/2) = 2 := by unfold pyRound; norm_num
example : pyRound (7/2) = 4 := by unfold pyRound; norm_num
example : pyRound (-1/2) = 0 := by unfold pyRound; norm_num
example : format_timestamp (628/5) = "00:02:06" := by
  have h : pyRound (628/5) = 126 := by unfold pyRound; norm_num
  simp only [format_timestamp, h]
  decide
example : format_srt_timestamp (628/5) = "00:02:05,600" := by
  have h0 : (max 0 (628/5 : ℚ)) = 628/5 := by simp [max_def]; norm_num
  have h1 : (⌊(628/5 : ℚ)⌋ : ℤ) = 125 := by norm_num
  have h2 : pyRound (((628/5 : ℚ) - ((125 : ℤ) : ℚ)) * 1000) = 600 := by
    unfold pyRound; norm_num
  simp only [format_srt_timestamp, h0, h1, h2]
  decide

/-! ## Step lemmas for the grouping loop -/

theorem go_nil_none (g : ℚ) (m : Nat) (gs : List Para) :
    group_go g m [] gs none = gs := rfl

theorem go_nil_some (g : ℚ) (m : Nat) (gs : List Para) (c : Para) :
    group_go g m [] gs (some c) = gs ++ [c] := rfl

theorem go_skip (g : ℚ) (m : Nat) (seg : Seg) (rest : List Seg)
    (gs : List Para) (cur : Option Para)
    (h : clean_text (seg.text.getD "") = "") :
    group_go g m (seg :: rest) gs cur = group_go g m rest gs cur := by
  simp only [group_go, h, if_pos]

theorem go_open (g : ℚ) (m : Nat) (seg : Seg) (rest : List Seg)
    (gs : List Para)
    (h : clean_text (seg.text.getD "") ≠ "") :
    group_go g m (seg :: rest) gs none
      = group_go g m rest gs (some (seedPara seg)) := by
  simp only [group_go, if_neg h]

theorem go_break (g : ℚ) (m : Nat) (seg : Seg) (rest : List Seg)
    (gs : List Para) (c : Para)
    (h : clean_text (seg.text.getD "") ≠ "")
    (hb : should_break c (effSpeaker seg) (startVal seg) g m) :
    group_go g m (seg :: rest) gs (some c)
      = group_go g m rest (gs ++ [c]) (some (seedPara seg)) := by
  simp only [group_go, if_neg h, if_pos hb]

theorem go_merge (g : ℚ) (m : Nat) (seg : Seg) (rest : List Seg)
    (gs : List Para) (c : Para)
    (h : clean_text (seg.text.getD "") ≠ "")
    (hb : ¬ should_break c (effSpeaker seg) (startVal seg) g m) :
    group_go g m (seg :: rest) gs (some c)
      = group_go g m rest gs (some (mergePara c seg)) := by
  simp only [group_go, if_neg h, if_neg hb]

/-- C1: the three-segment scenario — `("A","hello",0,1)`,
`("A","world",1.2,2)`, `("B","hi",2.1,3)` with `gap_seconds = 2.5` and
`max_words = 120` — yields exactly two paragraphs,
`("A", "hello world", 0, 2)` and `("B", "hi", 2.1, 3)`. -/
theorem C1_scenario :
    group_segments
      [⟨some "hello", some 0, some 1, some "A"⟩,
       ⟨some "world", some (6/5), some 2, some "A"⟩,
       ⟨some "hi", some (21/10), some 3, some "B"⟩] (5/2) 120
    = [⟨"A", 0, 2, "hello world", 2⟩, ⟨"B", 21/10, 3, "hi", 1⟩] := by
  unfold group_segments
  rw [go_open _ _ _ _ _ (by decide)]
  rw [go_merge _ _ _ _ _ _ (by decide) ?hb1]
  case hb1 =>
    unfold should_break
    push_neg
    refine ⟨by decide, ?_, by decide⟩
    simp only [seedPara, startVal, endVal, effSpeaker, Option.getD]
    norm_num
  rw [go_break _ _ _ _ _ _ (by decide) ?hb2]
  case hb2 =>
    left
    decide
  rw [go_nil_some]
  simp only [List.nil_append, mergePara, seedPara, effSpeaker, startVal, endVal,
    Option.getD, List.cons.injEq, Para.mk.injEq, and_true, List.nil_append]
  rw [show (if ("A" : String) = "" then "SPEAKER_00" else "A") = "A" from by decide,
      show (if ("B" : String) = "" then "SPEAKER_00" else "B") = "B" from by decide,
      show clean_text "hello" ++ " " ++ clean_text "world" = "hello world" from by decide,
      show clean_text "hi" = "hi" from by decide,
      show word_count (clean_text "hello") + word_count (clean_text "world") = 2 from by decide,
      show word_count "hi" = 1 from by decide]
  rfl

/-! ## Word-cap bound -/

theorem segWords_le_max {s : Seg} {segs : List Seg} (h : s ∈ segs) :
    segWords s ≤ maxSegWords segs := by
  induction segs with
  | nil => cases h
  | cons t rest ih =>
    rcases List.mem_cons.mp h with h | h
    · subst h; exact le_max_left _ _
    · exact le_trans (ih h) (le_max_right _ _)

theorem not_break_words {c : Para} {spk : String} {st g : ℚ} {m : Nat}
    (hb : ¬ should_break c spk st g m) : c.words < m := by
  unfold should_break at hb
  push_neg at hb
  exact hb.2.2

theorem go_words_bound (g : ℚ) (m W : Nat) :
    ∀ (segs : List Seg) (gs : List Para) (cur : Option Para),
      (∀ s ∈ segs, segWords s ≤ W) →
      (∀ p ∈ gs, p.words ≤ m + W) →
      (∀ c, cur = some c → c.words ≤ m + W) →
      ∀ p ∈ group_go g m segs gs cur, p.words ≤ m + W := by
  intro segs
  induction segs with
  | nil =>
    intro gs cur hsegs hgs hcur p hp
    cases cur with
    | none => exact hgs p hp
    | some c =>
      rw [go_nil_some] at hp
      rcases List.mem_append.mp hp with h | h
      · exact hgs p h
      · rw [List.mem_singleton.mp h]; exact hcur c rfl
  | cons seg rest ih =>
    intro gs cur hsegs hgs hcur p hp
    have hsegrest : ∀ s ∈ rest, segWords s ≤ W :=
      fun s hs => hsegs s (List.mem_cons_of_mem _ hs)
    have hseg : segWords seg ≤ W := hsegs seg (List.mem_cons_self _ _)
    by_cases he : clean_text (seg.text.getD "") = ""
    · rw [go_skip _ _ _ _ _ _ he] at hp
      exact ih gs cur hsegrest hgs hcur p hp
    · cases cur with
      | none =>
        rw [go_open _ _ _ _ _ he] at hp
        refine ih gs _ hsegrest hgs ?_ p hp
        intro c hc
        cases hc
        calc (seedPara seg).words = segWords seg := rfl
          _ ≤ W := hseg
          _ ≤ m + W := Nat.le_add_left _ _
      | some c =>
        by_cases hb : should_break c (effSpeaker seg) (startVal seg) g m
        · rw [go_break _ _ _ _ _ _ he hb] at hp
          refine ih _ _ hsegrest ?_ ?_ p hp
          · intro q hq
            rcases List.mem_append.mp hq with h | h
            · exact hgs q h
            · rw [List.mem_singleton.mp h]; exact hcur c rfl
          · intro c' hc'
            cases hc'
            calc (seedPara seg).words = segWords seg := rfl
              _ ≤ W := hseg
              _ ≤ m + W := Nat.le_add_left _ _
        · rw [go_merge _ _ _ _ _ _ he hb] at hp
          refine ih gs _ hsegrest hgs ?_ p hp
          intro c' hc'
          cases hc'
          have hw : c.words < m := not_break_words hb
          have hsw : word_count (clean_text (seg.text.getD "")) ≤ W := hseg
          simp only [mergePara]
          omega

/-- C2: with the same (defaulted) speaker and word count below the cap,
`group_segments` starts a new paragraph exactly when the gap
`segment.start - current.end` is `>= gap_seconds`: a gap equal to
`gap_seconds` breaks, a strictly smaller gap merges into the open
paragraph. -/
theorem C2_gap_boundary (g : ℚ) (m : Nat) (gs : List Para) (c : Para)
    (seg : Seg) (rest : List Seg)
    (hne : clean_text (seg.text.getD "") ≠ "")
    (hspk : effSpeaker seg = c.speaker) (hw : c.words < m) :
    (startVal seg - c.stop ≥ g →
        group_go g m (seg :: rest) gs (some c)
          = group_go g m rest (gs ++ [c]) (some (seedPara seg)))
    ∧ (startVal seg - c.stop < g →
        group_go g m (seg :: rest) gs (some c)
          = group_go g m rest gs (some (mergePara c seg))) := by
  constructor
  · intro hg
    exact go_break g m seg rest gs c hne (Or.inr (Or.inl hg))
  · intro hg
    refine go_merge g m seg rest gs c hne ?_
    unfold should_break
    push_neg
    exact ⟨hspk, hg, hw⟩

theorem C2_gap_boundary_witness :
    group_go 2 5 [⟨some "y", some 2, some 3, some "A"⟩] [] (some ⟨"A", 0, 0, "x", 1⟩)
      = group_go 2 5 [] ([] ++ [⟨"A", 0, 0, "x", 1⟩])
          (some (seedPara ⟨some "y", some 2, some 3, some "A"⟩)) :=
  (C2_gap_boundary 2 5 [] ⟨"A", 0, 0, "x", 1⟩ ⟨some "y", some 2, some 3, some "A"⟩ []
    (by decide) (by decide) (by decide)).1 (by simp [startVal])

/-- C3: once the open paragraph's running word count has reached
`max_words`, the next contributing segment always starts a new paragraph
(the cap is checked before adding the segment, whatever the speaker or
gap); consequently any output paragraph exceeds `max_words` by at most
the contribution of a single merged segment: its word count is at most
`max_words + maxSegWords segs`. -/
theorem C3_word_cap (g : ℚ) (m : Nat) :
    (∀ (gs : List Para) (c : Para) (seg : Seg) (rest : List Seg),
        clean_text (seg.text.getD "") ≠ "" →
        c.words ≥ m →
        group_go g m (seg :: rest) gs (some c)
          = group_go g m rest (gs ++ [c]) (some (seedPara seg)))
    ∧ (∀ (segs : List Seg) (p : Para), p ∈ group_segments segs g m →
        p.words ≤ m + maxSegWords segs) := by
  constructor
  · intro gs c seg rest hne hw
    exact go_break g m seg rest gs c hne (Or.inr (Or.inr hw))
  · intro segs p hp
    refine go_words_bound g m (maxSegWords segs) segs [] none
      (fun s hs => segWords_le_max hs) (by intro q hq; cases hq) ?_ p hp
    intro c hc
    cases hc

theorem C3_word_cap_witness :
    group_go 2 5 [⟨some "y", some 100, some 101, some "A"⟩] [] (some ⟨"A", 0, 0, "x", 7⟩)
      = group_go 2 5 [] ([] ++ [⟨"A", 0, 0, "x", 7⟩])
          (some (seedPara ⟨some "y", some 100, some 101, some "A"⟩)) :=
  (C3_word_cap 2 5).1 [] ⟨"A", 0, 0, "x", 7⟩ ⟨some "y", some 100, some 101, some "A"⟩ []
    (by decide) (by decide)

/-! ## Congruence of the grouping loop under field-preserving maps -/

theorem seedPara_congr {f : Seg → Seg}
    (htext : ∀ s, (f s).text.getD "" = s.text.getD "")
    (hstart : ∀ s, startVal (f s) = startVal s)
    (hstop : ∀ s, endVal (f s) = endVal s)
    (hspk : ∀ s, effSpeaker (f s) = effSpeaker s) (s : Seg) :
    seedPara (f s) = seedPara s := by
  simp only [seedPara, htext, hstart, hstop, hspk]

theorem mergePara_congr {f : Seg → Seg}
    (htext : ∀ s, (f s).text.getD "" = s.text.getD "")
    (hstop : ∀ s, endVal (f s) = endVal s) (c : Para) (s : Seg) :
    mergePara c (f s) = mergePara c s := by
  simp only [mergePara, htext, hstop]

theorem go_map_congr {f : Seg → Seg}
    (htext : ∀ s, (f s).text.getD "" = s.text.getD "")
    (hstart : ∀ s, startVal (f s) = startVal s)
    (hstop : ∀ s, endVal (f s) = endVal s)
    (hspk : ∀ s, effSpeaker (f s) = effSpeaker s)
    (g : ℚ) (m : Nat) :
    ∀ (segs : List Seg) (gs : List Para) (cur : Option Para),
      group_go g m (segs.map f) gs cur = group_go g m segs gs cur := by
  intro segs
  induction segs with
  | nil => intro gs cur; rfl
  | cons seg rest ih =>
    intro gs cur
    rw [List.map_cons]
    by_cases he : clean_text (seg.text.getD "") = ""
    · rw [go_skip _ _ _ _ _ _ (by rw [htext]; exact he), go_skip _ _ _ _ _ _ he, ih]
    · have he' : clean_text ((f seg).text.getD "") ≠ "" := by rw [htext]; exact he
      cases cur with
      | none =>
        rw [go_open _ _ _ _ _ he', go_open _ _ _ _ _ he,
          seedPara_congr htext hstart hstop hspk, ih]
      | some c =>
        by_cases hb : should_break c (effSpeaker seg) (startVal seg) g m
        · rw [go_break _ _ _ _ _ _ he' (by rw [hspk, hstart]; exact hb),
            go_break _ _ _ _ _ _ he hb,
            seedPara_congr htext hstart hstop hspk, ih]
        · rw [go_merge _ _ _ _ _ _ he' (by rw [hspk, hstart]; exact hb),
            go_merge _ _ _ _ _ _ he hb,
            mergePara_congr htext hstop, ih]

theorem blankToNone_text (s : Seg) : (blankToNone s).text = s.text := by
  unfold blankToNone; split <;> rfl

theorem blankToNone_startVal (s : Seg) : startVal (blankToNone s) = startVal s := by
  unfold blankToNone startVal; split <;> rfl

theorem blankToNone_endVal (s : Seg) : endVal (blankToNone s) = endVal s := by
  unfold blankToNone endVal startVal; split <;> rfl

theorem blankToNone_effSpeaker (s : Seg) : effSpeaker (blankToNone s) = effSpeaker s := by
  unfold blankToNone effSpeaker
  rcases h : s.speaker with _ | l
  · simp [h]
  · by_cases hl : l = ""
    · subst hl; simp [h]
    · simp [h, hl]

theorem effSpeaker_ne_empty (s : Seg) : effSpeaker s ≠ "" := by
  unfold effSpeaker
  rcases s.speaker with _ | l
  · decide
  · by_cases hl : l = ""
    · subst hl; decide
    · simp only [if_neg hl]; exact hl

theorem fillDefaults_text (s : Seg) : (fillDefaults s).text.getD "" = s.text.getD "" := rfl

theorem fillDefaults_startVal (s : Seg) : startVal (fillDefaults s) = startVal s := rfl

theorem fillDefaults_endVal (s : Seg) : endVal (fillDefaults s) = endVal s := rfl

theorem fillDefaults_effSpeaker (s : Seg) : effSpeaker (fillDefaults s) = effSpeaker s := by
  show (if effSpeaker s = "" then "SPEAKER_00" else effSpeaker s) = effSpeaker s
  rw [if_neg (effSpeaker_ne_empty s)]

/-- C4 counterexample: a segment with missing `start`/`end` fields, and
one with negative times, are silently coerced into paragraphs —
`group_segments` raises no error for timing fields that are missing or
negative (the claim asserts it fails fast on such inputs). -/
theorem C4_counterexample :
    group_segments [⟨some "hi", none, none, none⟩] (5/2) 120
        = [⟨"SPEAKER_00", 0, 0, "hi", 1⟩]
    ∧ group_segments [⟨some "hi", some (-5), some (-4), none⟩] (5/2) 120
        = [⟨"SPEAKER_00", -5, -4, "hi", 1⟩] := by
  constructor <;>
  · unfold group_segments
    rw [go_open _ _ _ _ _ (by decide), go_nil_some]
    simp only [List.nil_append, seedPara, effSpeaker, startVal, endVal, Option.getD]
    rw [show clean_text "hi" = "hi" from by decide,
      show word_count "hi" = 1 from by decide]

/-- C4 amended: `group_segments` performs no validation of timing
fields.  A missing `start` is coerced to `0.0`, a missing `end` to the
segment's (coerced) `start`, a falsy speaker to `"SPEAKER_00"`, and
out-of-contract values such as negative times are carried unchanged
into the output paragraph; no input makes the grouping fail.  Making
the silent defaults explicit (`fillDefaults`) never changes the
output. -/
theorem C4_no_validation :
    (∀ (segs : List Seg) (g : ℚ) (m : Nat),
        group_segments (segs.map fillDefaults) g m = group_segments segs g m)
    ∧ (∀ (g : ℚ) (m : Nat),
        group_segments [⟨some "hi", none, none, none⟩] g m
          = [⟨"SPEAKER_00", 0, 0, "hi", 1⟩])
    ∧ (∀ (g : ℚ) (m : Nat),
        group_segments [⟨some "hi", some (-5), some (-4), none⟩] g m
          = [⟨"SPEAKER_00", -5, -4, "hi", 1⟩]) := by
  refine ⟨?_, ?_, ?_⟩
  · intro segs g m
    exact go_map_congr fillDefaults_text fillDefaults_startVal fillDefaults_endVal
      fillDefaults_effSpeaker g m segs [] none
  all_goals
  · intro g m
    unfold group_segments
    rw [go_open _ _ _ _ _ (by decide), go_nil_some]
    simp only [List.nil_append, seedPara, effSpeaker, startVal, endVal, Option.getD]
    rw [show clean_text "hi" = "hi" from by decide,
      show word_count "hi" = 1 from by decide]

/-- C10: the expression `seg.get("speaker") or "SPEAKER_00"` substitutes the default
label for any falsy speaker field — an explicit empty string behaves
exactly like a missing field (replacing `some ""` by `none` never
changes the output), and an empty-labelled segment merges with an
adjacent unlabelled one. -/
theorem C10_falsy_speaker :
    (∀ s : Seg, effSpeaker { s with speaker := some "" } = "SPEAKER_00"
        ∧ effSpeaker { s with speaker := none } = "SPEAKER_00")
    ∧ (∀ (segs : List Seg) (g : ℚ) (m : Nat),
        group_segments (segs.map blankToNone) g m = group_segments segs g m)
    ∧ group_segments
        [⟨some "hello", some 0, some 1, some ""⟩,
         ⟨some "world", some (6/5), some 2, none⟩] (5/2) 120
        = [⟨"SPEAKER_00", 0, 2, "hello world", 2⟩] := by
  refine ⟨fun s => ⟨rfl, rfl⟩, ?_, ?_⟩
  · intro segs g m
    exact go_map_congr (fun s => congrArg (fun o => Option.getD o "") (blankToNone_text s))
      blankToNone_startVal blankToNone_endVal blankToNone_effSpeaker g m segs [] none
  · unfold group_segments
    rw [go_open _ _ _ _ _ (by decide)]
    rw [go_merge _ _ _ _ _ _ (by decide) ?hb]
    case hb =>
      unfold should_break
      push_neg
      refine ⟨by decide, ?_, by decide⟩
      simp only [seedPara, startVal, endVal, effSpeaker, Option.getD]
      norm_num
    rw [go_nil_some]
    simp only [List.nil_append, mergePara, seedPara, effSpeaker, startVal, endVal,
      Option.getD]
    rw [show clean_text "hello" ++ " " ++ clean_text "world" = "hello world" from by decide,
      show word_count (clean_text "hello") + word_count (clean_text "world") = 2 from by decide,
      if_pos trivial]

/-! ## Paragraph time-span invariant -/

theorem go_start_le_stop (g : ℚ) (m : Nat) :
    ∀ (segs : List Seg) (gs : List Para) (cur : Option Para),
      (∀ s ∈ segs, startVal s ≤ endVal s) →
      segs.Pairwise (fun a b => startVal a ≤ startVal b) →
      (∀ p ∈ gs, p.start ≤ p.stop) →
      (∀ c, cur = some c → c.start ≤ c.stop ∧ ∀ s ∈ segs, c.start ≤ startVal s) →
      ∀ p ∈ group_go g m segs gs cur, p.start ≤ p.stop := by
  intro segs
  induction segs with
  | nil =>
    intro gs cur _ _ hgs hcur p hp
    cases cur with
    | none => exact hgs p hp
    | some c =>
      rw [go_nil_some] at hp
      rcases List.mem_append.mp hp with h | h
      · exact hgs p h
      · rw [List.mem_singleton.mp h]; exact (hcur c rfl).1
  | cons seg rest ih =>
    intro gs cur hend hsort hgs hcur p hp
    have hse : startVal seg ≤ endVal seg := hend seg (List.mem_cons_self _ _)
    have hendr : ∀ s ∈ rest, startVal s ≤ endVal s :=
      fun s hs => hend s (List.mem_cons_of_mem _ hs)
    rw [List.pairwise_cons] at hsort
    by_cases he : clean_text (seg.text.getD "") = ""
    · rw [go_skip _ _ _ _ _ _ he] at hp
      refine ih gs cur hendr hsort.2 hgs ?_ p hp
      intro c hc
      exact ⟨(hcur c hc).1, fun s hs => (hcur c hc).2 s (List.mem_cons_of_mem _ hs)⟩
    · cases cur with
      | none =>
        rw [go_open _ _ _ _ _ he] at hp
        refine ih gs _ hendr hsort.2 hgs ?_ p hp
        intro c hc
        cases hc
        exact ⟨hse, hsort.1⟩
      | some c =>
        by_cases hb : should_break c (effSpeaker seg) (startVal seg) g m
        · rw [go_break _ _ _ _ _ _ he hb] at hp
          refine ih _ _ hendr hsort.2 ?_ ?_ p hp
          · intro q hq
            rcases List.mem_append.mp hq with h | h
            · exact hgs q h
            · rw [List.mem_singleton.mp h]; exact (hcur c rfl).1
          · intro c' hc'
            cases hc'
            exact ⟨hse, hsort.1⟩
        · rw [go_merge _ _ _ _ _ _ he hb] at hp
          refine ih gs _ hendr hsort.2 hgs ?_ p hp
          intro c' hc'
          cases hc'
          have h1 : c.start ≤ startVal seg := (hcur c rfl).2 seg (List.mem_cons_self _ _)
          refine ⟨le_trans h1 hse, ?_⟩
          intro s hs
          exact (hcur c rfl).2 s (List.mem_cons_of_mem _ hs)

/-- C5 counterexample: the claim promises `end >= start` for every
paragraph over *every* input.  A single segment whose own `end` is
before its `start`, or two same-speaker segments out of time order,
produce a paragraph with `stop < start` (the Grouper does not crash,
but the invariant fails). -/
theorem C5_counterexample :
    (group_segments [⟨some "hi", some 5, some 1, none⟩] (5/2) 120
        = [⟨"SPEAKER_00", 5, 1, "hi", 1⟩] ∧ ¬ ((1 : ℚ) ≥ 5))
    ∧ (group_segments
        [⟨some "a", some 10, some 11, none⟩, ⟨some "b", some 0, some 1, none⟩] (5/2) 120
        = [⟨"SPEAKER_00", 10, 1, "a b", 2⟩] ∧ ¬ ((1 : ℚ) ≥ 10)) := by
  refine ⟨⟨?_, by norm_num⟩, ⟨?_, by norm_num⟩⟩
  · unfold group_segments
    rw [go_open _ _ _ _ _ (by decide), go_nil_some]
    simp only [List.nil_append, seedPara, effSpeaker, startVal, endVal, Option.getD]
    rw [show clean_text "hi" = "hi" from by decide,
      show word_count "hi" = 1 from by decide]
  · unfold group_segments
    rw [go_open _ _ _ _ _ (by decide)]
    rw [go_merge _ _ _ _ _ _ (by decide) ?hb]
    case hb =>
      unfold should_break
      push_neg
      refine ⟨by decide, ?_, by decide⟩
      simp only [seedPara, startVal, endVal, effSpeaker, Option.getD]
      norm_num
    rw [go_nil_some]
    simp only [List.nil_append, mergePara, seedPara, effSpeaker, startVal, endVal,
      Option.getD]
    rw [show clean_text "a" ++ " " ++ clean_text "b" = "a b" from by decide,
      show word_count (clean_text "a") + word_count (clean_text "b") = 2 from by decide]

/-- C5 amended: provided every input segment satisfies
`end >= start` (after the `.get` default coercions) and the segments
arrive in non-decreasing `start` order — the ordering the upstream
contract promises — every paragraph produced by `group_segments`
satisfies `stop >= start`.  Without those hypotheses the Grouper still
returns normally but can emit a paragraph with `stop < start`. -/
theorem C5_end_ge_start (segs : List Seg) (g : ℚ) (m : Nat)
    (hend : ∀ s ∈ segs, startVal s ≤ endVal s)
    (hsort : segs.Pairwise fun a b => startVal a ≤ startVal b) :
    ∀ p ∈ group_segments segs g m, p.start ≤ p.stop := by
  refine go_start_le_stop g m segs [] none hend hsort ?_ ?_
  · intro p hp; cases hp
  · intro c hc; cases hc

theorem C5_end_ge_start_witness :
    (seedPara ⟨some "hello", some 0, some 1, some "A"⟩).start
      ≤ (seedPara ⟨some "hello", some 0, some 1, some "A"⟩).stop :=
  C5_end_ge_start [⟨some "hello", some 0, some 1, some "A"⟩] (5/2) 120
    (by
      intro s hs
      rw [List.mem_singleton.mp hs]
      norm_num [startVal, endVal])
    (List.pairwise_singleton _ _)
    (seedPara ⟨some "hello", some 0, some 1, some "A"⟩)
    (by
      unfold group_segments
      rw [go_open _ _ _ _ _ (by decide), go_nil_some]
      simp)

/-! ## Paragraph count -/

theorem contributing_nil : contributing [] = 0 := rfl

theorem contributing_cons_empty {seg : Seg} (rest : List Seg)
    (he : clean_text (seg.text.getD "") = "") :
    contributing (seg :: rest) = contributing rest := by
  unfold contributing
  rw [List.filter_cons, if_neg (by simp [he])]

theorem contributing_cons_ne {seg : Seg} (rest : List Seg)
    (he : clean_text (seg.text.getD "") ≠ "") :
    contributing (seg :: rest) = contributing rest + 1 := by
  unfold contributing
  rw [List.filter_cons, if_pos (by simp [he])]
  simp [List.length_cons]

theorem go_length_le (g : ℚ) (m : Nat) :
    ∀ (segs : List Seg) (gs : List Para) (cur : Option Para),
      (group_go g m segs gs cur).length
        ≤ gs.length + (if cur.isSome then 1 else 0) + contributing segs := by
  intro segs
  induction segs with
  | nil =>
    intro gs cur
    cases cur with
    | none => simp [go_nil_none, contributing_nil]
    | some c => simp [go_nil_some, contributing_nil]
  | cons seg rest ih =>
    intro gs cur
    by_cases he : clean_text (seg.text.getD "") = ""
    · rw [go_skip _ _ _ _ _ _ he, contributing_cons_empty rest he]
      exact ih gs cur
    · rw [contributing_cons_ne rest he]
      cases cur with
      | none =>
        rw [go_open _ _ _ _ _ he]
        have := ih gs (some (seedPara seg))
        simp at this ⊢
        omega
      | some c =>
        by_cases hb : should_break c (effSpeaker seg) (startVal seg) g m
        · rw [go_break _ _ _ _ _ _ he hb]
          have := ih (gs ++ [c]) (some (seedPara seg))
          simp only [Option.isSome_some, List.length_append, List.length_singleton]
            at this ⊢
          omega
        · rw [go_merge _ _ _ _ _ _ he hb]
          have := ih gs (some (mergePara c seg))
          simp only [Option.isSome_some] at this ⊢
          omega

theorem go_length_lower_some (g : ℚ) (m : Nat) :
    ∀ (segs : List Seg) (gs : List Para) (c : Para),
      gs.length + 1 ≤ (group_go g m segs gs (some c)).length := by
  intro segs
  induction segs with
  | nil =>
    intro gs c
    simp [go_nil_some]
  | cons seg rest ih =>
    intro gs c
    by_cases he : clean_text (seg.text.getD "") = ""
    · rw [go_skip _ _ _ _ _ _ he]; exact ih gs c
    · by_cases hb : should_break c (effSpeaker seg) (startVal seg) g m
      · rw [go_break _ _ _ _ _ _ he hb]
        have := ih (gs ++ [c]) (seedPara seg)
        simp only [List.length_append, List.length_singleton] at this
        omega
      · rw [go_merge _ _ _ _ _ _ he hb]
        exact ih gs (mergePara c seg)

theorem go_none_empty (g : ℚ) (m : Nat) :
    ∀ (segs : List Seg) (gs : List Para), contributing segs = 0 →
      group_go g m segs gs none = gs := by
  intro segs
  induction segs with
  | nil => intro gs _; rfl
  | cons seg rest ih =>
    intro gs h
    by_cases he : clean_text (seg.text.getD "") = ""
    · rw [go_skip _ _ _ _ _ _ he]
      exact ih gs (by rw [contributing_cons_empty rest he] at h; exact h)
    · rw [contributing_cons_ne rest he] at h
      omega

theorem go_none_lower (g : ℚ) (m : Nat) :
    ∀ (segs : List Seg) (gs : List Para), contributing segs ≠ 0 →
      gs.length + 1 ≤ (group_go g m segs gs none).length := by
  intro segs
  induction segs with
  | nil => intro gs h; exact absurd rfl h
  | cons seg rest ih =>
    intro gs h
    by_cases he : clean_text (seg.text.getD "") = ""
    · rw [go_skip _ _ _ _ _ _ he]
      exact ih gs (by rw [contributing_cons_empty rest he] at h; exact h)
    · rw [go_open _ _ _ _ _ he]
      exact go_length_lower_some g m rest gs (seedPara seg)

/-- C6: the number of paragraphs is at most the number of segments with
non-empty cleaned text, and it is zero exactly when every segment
cleans to the empty string (empty segments never open or extend a
paragraph). -/
theorem C6_paragraph_count (segs : List Seg) (g : ℚ) (m : Nat) :
    (group_segments segs g m).length ≤ contributing segs
    ∧ ((group_segments segs g m).length = 0 ↔ contributing segs = 0) := by
  unfold group_segments
  refine ⟨?_, ?_, ?_⟩
  · have := go_length_le g m segs [] none
    simpa using this
  · intro h
    by_contra hc
    have := go_none_lower g m segs [] hc
    omega
  · intro h
    rw [go_none_empty g m segs [] h]
    rfl

/-! ## Speaker-name assignment -/

theorem lookup_isSome_iff (k : String) :
    ∀ m : List (String × String),
      ((m.lookup k).isSome = true) ↔ k ∈ m.map Prod.fst := by
  intro m
  induction m with
  | nil => simp [List.lookup]
  | cons a rest ih =>
    rcases a with ⟨k', v⟩
    by_cases h : k = k'
    · subst h
      simp [List.lookup]
    · have hb : (k == k') = false := by simp [h]
      simp only [List.lookup, hb, List.map_cons, List.mem_cons]
      rw [ih]
      simp [h]

theorem firstAppearance_congr :
    ∀ (ps : List Para) (seen₁ seen₂ : List String),
      (∀ x, x ∈ seen₁ ↔ x ∈ seen₂) →
      firstAppearance seen₁ ps = firstAppearance seen₂ ps := by
  intro ps
  induction ps with
  | nil => intro _ _ _; rfl
  | cons p rest ih =>
    intro seen₁ seen₂ h
    unfold firstAppearance
    by_cases hp : p.speaker ∈ seen₁
    · rw [if_pos hp, if_pos ((h _).mp hp), ih _ _ h]
    · rw [if_neg hp, if_neg (fun hc => hp ((h _).mpr hc))]
      congr 1
      refine ih _ _ ?_
      intro x
      simp only [List.mem_cons]
      rw [h x]

theorem map_speakers_go_spec :
    ∀ (ps : List Para) (m : List (String × String)),
      map_speakers_go ps m
        = m ++ namesFrom (m.length + 1) (firstAppearance (m.map Prod.fst) ps) := by
  intro ps
  induction ps with
  | nil => intro m; simp [map_speakers_go, firstAppearance, namesFrom]
  | cons p rest ih =>
    intro m
    unfold map_speakers_go firstAppearance
    by_cases hp : p.speaker ∈ m.map Prod.fst
    · rw [if_pos (by rw [lookup_isSome_iff]; exact hp), if_pos hp, ih]
    · rw [if_neg (by rw [lookup_isSome_iff]; exact hp), if_neg hp, ih]
      rw [firstAppearance_congr rest ((m ++ [(p.speaker, "Speaker " ++ Nat.repr (m.length + 1))]).map Prod.fst)
        (p.speaker :: m.map Prod.fst) (by intro x; simp [or_comm])]
      simp only [List.length_append, List.length_singleton, namesFrom,
        List.append_assoc, List.singleton_append]

/-- C7: function `map_speakers` iterates paragraphs in order and gives each
not-yet-seen raw label the next sequential display name starting at
`"Speaker 1"` — it coincides with the spec-side first-appearance
numbering `assign_names_spec` — and, being a pure function of the
paragraph list, it is deterministic: re-running it on the same
paragraphs yields the same mapping. -/
theorem C7_speaker_names :
    (∀ ps : List Para, map_speakers ps = assign_names_spec ps)
    ∧ (∀ ps : List Para, map_speakers ps = map_speakers ps) := by
  refine ⟨?_, fun ps => rfl⟩
  intro ps
  unfold map_speakers assign_names_spec
  rw [map_speakers_go_spec ps []]
  rfl

/-! ## Timestamp formatting -/

theorem repr_len_le_two : ∀ n, n < 100 → (Nat.repr n).data.length ≤ 2 := by decide

theorem repr_len_le_three : ∀ n, n < 1000 → (Nat.repr n).data.length ≤ 3 := by decide

theorem padNum_length {w n : Nat} (h : (Nat.repr n).data.length ≤ w) :
    (padNum w n).length = w := by
  simp only [padNum, String.length, List.length_append, List.length_replicate]
  omega

theorem pyRound_nonneg {q : ℚ} (h : 0 ≤ q) : 0 ≤ pyRound q := by
  have hf : (0 : ℤ) ≤ ⌊q⌋ := Int.floor_nonneg.mpr h
  unfold pyRound
  split_ifs <;> omega

theorem pyRound_zero : pyRound 0 = 0 := by
  unfold pyRound; norm_num

/-- C8 counterexample: at `0.9999` the nearest millisecond is a full
second, but the code computes `millis = 1000` without carrying, so the
output has a four-digit millisecond field (13 characters, not the
`HH:MM:SS,mmm` shape, and not the correctly rounded string); at
`360000` seconds the hour field has three digits. -/
theorem C8_counterexample :
    format_srt_timestamp (9999/10000) = "00:00:00,1000"
    ∧ format_srt_timestamp (9999/10000) ≠ "00:00:01,000"
    ∧ (format_srt_timestamp (9999/10000)).length ≠ 12
    ∧ format_srt_timestamp 360000 = "100:00:00,000" := by
  have h1 : format_srt_timestamp (9999/10000) = "00:00:00,1000" := by
    have h0 : max (0 : ℚ) (9999/10000) = 9999/10000 := max_eq_right (by norm_num)
    have hf : (⌊(9999/10000 : ℚ)⌋ : ℤ) = 0 := by norm_num
    have hp : pyRound (((9999/10000 : ℚ) - ((0 : ℤ) : ℚ)) * 1000) = 1000 := by
      unfold pyRound; norm_num
    simp only [format_srt_timestamp, h0, hf, hp]
    decide
  have h2 : format_srt_timestamp 360000 = "100:00:00,000" := by
    have h0 : max (0 : ℚ) 360000 = 360000 := max_eq_right (by norm_num)
    have hf : (⌊(360000 : ℚ)⌋ : ℤ) = 360000 := by norm_num
    have hp : pyRound (((360000 : ℚ) - ((360000 : ℤ) : ℚ)) * 1000) = 0 := by
      unfold pyRound; norm_num
    simp only [format_srt_timestamp, h0, hf, hp]
    decide
  refine ⟨h1, ?_, ?_, h2⟩
  · rw [h1]; decide
  · rw [h1]; decide

/-- C8 amended: for inputs whose hour component stays below 100 and
whose fractional part rounds to at most 999 milliseconds, the output is
exactly `HH:MM:SS,mmm` — two-digit zero-padded hour/minute/second
fields from floor division of `⌊q⌋` and a three-digit millisecond field
holding the fractional part rounded to the nearest millisecond by
Python's `round` (ties to even), 12 characters in all; non-positive
inputs clamp to `"00:00:00,000"`.  When the fraction rounds to a full
second the millisecond field is the four-digit `1000` with no carry
(see the counterexample), so the shape claim holds only under these
hypotheses.  In particular `125.6` renders as `"00:02:05,600"`, and as
`"00:02:06"` under `format_timestamp`. -/
theorem C8_timestamp_format :
    (∀ q : ℚ, q ≤ 0 → format_srt_timestamp q = "00:00:00,000")
    ∧ (∀ q : ℚ, 0 ≤ q → ⌊q⌋ < 360000 →
        pyRound ((q - ((⌊q⌋ : ℤ) : ℚ)) * 1000) ≤ 999 →
        format_srt_timestamp q
          = padNum 2 ((⌊q⌋).toNat / 3600) ++ ":" ++ padNum 2 ((⌊q⌋).toNat % 3600 / 60)
            ++ ":" ++ padNum 2 ((⌊q⌋).toNat % 60) ++ ","
            ++ padNum 3 (pyRound ((q - ((⌊q⌋ : ℤ) : ℚ)) * 1000)).toNat
        ∧ (format_srt_timestamp q).length = 12)
    ∧ format_srt_timestamp (628/5) = "00:02:05,600"
    ∧ format_timestamp (628/5) = "00:02:06" := by
  refine ⟨?_, ?_, ?_, ?_⟩
  · intro q h
    have hm : max (0 : ℚ) q = 0 := max_eq_left h
    simp only [format_srt_timestamp, hm, Int.floor_zero, Int.cast_zero, sub_zero,
      zero_mul, pyRound_zero, Int.toNat_zero]
    decide
  · intro q h0 hlt hle
    have hm : max (0 : ℚ) q = q := max_eq_right h0
    have hfl : (0 : ℤ) ≤ ⌊q⌋ := Int.floor_nonneg.mpr h0
    have heq : format_srt_timestamp q
        = padNum 2 ((⌊q⌋).toNat / 3600) ++ ":" ++ padNum 2 ((⌊q⌋).toNat % 3600 / 60)
          ++ ":" ++ padNum 2 ((⌊q⌋).toNat % 60) ++ ","
          ++ padNum 3 (pyRound ((q - ((⌊q⌋ : ℤ) : ℚ)) * 1000)).toNat := by
      simp only [format_srt_timestamp, hm]
    have hms0 : 0 ≤ pyRound ((q - ((⌊q⌋ : ℤ) : ℚ)) * 1000) :=
      pyRound_nonneg (mul_nonneg (sub_nonneg.mpr (Int.floor_le q)) (by norm_num))
    have hh : (⌊q⌋).toNat / 3600 < 100 := by omega
    have hmm : (⌊q⌋).toNat % 3600 / 60 < 100 := by omega
    have hss : (⌊q⌋).toNat % 60 < 100 := by omega
    have hmsn : (pyRound ((q - ((⌊q⌋ : ℤ) : ℚ)) * 1000)).toNat < 1000 := by omega
    refine ⟨heq, ?_⟩
    rw [heq]
    simp only [String.length_append]
    rw [padNum_length (repr_len_le_two _ hh), padNum_length (repr_len_le_two _ hmm),
      padNum_length (repr_len_le_two _ hss), padNum_length (repr_len_le_three _ hmsn),
      show (":" : String).length = 1 from rfl, show ("," : String).length = 1 from rfl]
  · have h0 : max (0 : ℚ) (628/5) = 628/5 := max_eq_right (by norm_num)
    have hf : (⌊(628/5 : ℚ)⌋ : ℤ) = 125 := by norm_num
    have hp : pyRound (((628/5 : ℚ) - ((125 : ℤ) : ℚ)) * 1000) = 600 := by
      unfold pyRound; norm_num
    simp only [format_srt_timestamp, h0, hf, hp]
    decide
  · have h : pyRound (628/5) = 126 := by unfold pyRound; norm_num
    simp only [format_timestamp, h]
    decide

theorem C8_timestamp_format_witness :
    (format_srt_timestamp (628/5)).length = 12 :=
  (C8_timestamp_format.2.1 (628/5) (by norm_num) (by norm_num)
    (by
      have hf : (⌊(628/5 : ℚ)⌋ : ℤ) = 125 := by norm_num
      rw [hf]
      have hp : pyRound (((628/5 : ℚ) - ((125 : ℤ) : ℚ)) * 1000) = 600 := by
        unfold pyRound; norm_num
      rw [hp]
      norm_num)).2

/-! ## Idempotence of text cleaning -/

theorem isWS_newline : isWS '\n' = true := by decide

theorem isWS_space : isWS ' ' = true := by decide

theorem mapNL_eq_self {l : List Char} (h : ∀ c ∈ l, c ≠ '\n') : mapNL l = l := by
  unfold mapNL
  induction l with
  | nil => rfl
  | cons c rest ih =>
    rw [List.map_cons, if_neg (h c (List.mem_cons_self _ _)),
      ih (fun d hd => h d (List.mem_cons_of_mem _ hd))]

theorem wsSpace_no_newline {l : List Char} (h : wsSpace l) : ∀ c ∈ l, c ≠ '\n' := by
  intro c hc hne
  subst hne
  have := h _ hc isWS_newline
  exact absurd this (by decide)

theorem collapseWS_cons (b : Bool) (c : Char) (rest : List Char) :
    collapseWS b (c :: rest)
      = if isWS c = true then
          (if b then collapseWS true rest else ' ' :: collapseWS true rest)
        else c :: collapseWS false rest := by
  rw [collapseWS]

theorem collapseWS_cons_ws_true {c : Char} (rest : List Char) (hc : isWS c = true) :
    collapseWS true (c :: rest) = collapseWS true rest := by
  rw [collapseWS_cons, if_pos hc, if_pos rfl]

theorem collapseWS_cons_ws_false {c : Char} (rest : List Char) (hc : isWS c = true) :
    collapseWS false (c :: rest) = ' ' :: collapseWS true rest := by
  rw [collapseWS_cons, if_pos hc, if_neg (by simp)]

theorem collapseWS_cons_nonws {c : Char} (rest : List Char) (hc : isWS c = false)
    (b : Bool) : collapseWS b (c :: rest) = c :: collapseWS false rest := by
  rw [collapseWS_cons, if_neg (by simp [hc])]

theorem collapse_wsSpace : ∀ (l : List Char) (b : Bool), wsSpace (collapseWS b l) := by
  intro l
  induction l with
  | nil => intro b c hc; cases hc
  | cons c rest ih =>
    intro b d hd
    unfold collapseWS at hd
    by_cases hc : isWS c = true
    · rw [if_pos hc] at hd
      cases b with
      | true => exact ih true d hd
      | false =>
        simp only [Bool.false_eq_true, if_neg] at hd
        rcases List.mem_cons.mp hd with h | h
        · intro _; exact h
        · exact ih true d h
    · rw [if_neg hc] at hd
      rcases List.mem_cons.mp hd with h | h
      · subst h; intro hws; exact absurd hws hc
      · exact ih false d h

theorem collapse_noAdj_head :
    ∀ l : List Char, (∀ b, noAdj (collapseWS b l)) ∧ headNonWS (collapseWS true l) := by
  intro l
  induction l with
  | nil =>
    refine ⟨fun b => List.chain'_nil, ?_⟩
    intro c hc; cases hc
  | cons c rest ih =>
    rcases ih with ⟨ih1, ih2⟩
    by_cases hc : isWS c = true
    · constructor
      · intro b
        cases b with
        | true => rw [collapseWS_cons_ws_true rest hc]; exact ih1 true
        | false =>
          rw [collapseWS_cons_ws_false rest hc]
          unfold noAdj
          cases hX : collapseWS true rest with
          | nil => exact List.chain'_singleton _
          | cons d Y =>
            rw [List.chain'_cons]
            refine ⟨Or.inr (ih2 d (by rw [hX]; rfl)), ?_⟩
            rw [← hX]; exact ih1 true
      · rw [collapseWS_cons_ws_true rest hc]; exact ih2
    · have hc' : isWS c = false := by simpa using hc
      constructor
      · intro b
        rw [collapseWS_cons_nonws rest hc' b]
        unfold noAdj
        cases hX : collapseWS false rest with
        | nil => exact List.chain'_singleton _
        | cons d Y =>
          rw [List.chain'_cons]
          refine ⟨Or.inl hc', ?_⟩
          rw [← hX]; exact ih1 false
      · rw [collapseWS_cons_nonws rest hc' true]
        intro d hd
        cases hd
        exact hc'

theorem mem_dropWhile_subset (p : Char → Bool) :
    ∀ (l : List Char) (c : Char), c ∈ l.dropWhile p → c ∈ l := by
  intro l
  induction l with
  | nil => intro c hc; exact hc
  | cons a rest ih =>
    intro c hc
    by_cases ha : p a = true
    · rw [List.dropWhile_cons, if_pos ha] at hc
      exact List.mem_cons_of_mem _ (ih c hc)
    · rw [List.dropWhile_cons, if_neg ha] at hc
      exact hc

theorem mem_dropWhileEnd_subset (p : Char → Bool) (l : List Char) (c : Char)
    (hc : c ∈ dropWhileEnd p l) : c ∈ l := by
  unfold dropWhileEnd at hc
  rw [List.mem_reverse] at hc
  have := mem_dropWhile_subset p l.reverse c hc
  rwa [List.mem_reverse] at this

theorem noAdj_dropWhile (p : Char → Bool) :
    ∀ l : List Char, noAdj l → noAdj (l.dropWhile p) := by
  intro l
  induction l with
  | nil => intro h; exact h
  | cons a rest ih =>
    intro h
    by_cases ha : p a = true
    · rw [List.dropWhile_cons, if_pos ha]
      exact ih h.tail
    · rw [List.dropWhile_cons, if_neg ha]
      exact h

theorem noAdj_reverse {l : List Char} (h : noAdj l) : noAdj l.reverse := by
  unfold noAdj at h ⊢
  rw [List.chain'_reverse]
  exact h.imp fun _ _ hab => hab.symm

theorem noAdj_dropWhileEnd (p : Char → Bool) (l : List Char) (h : noAdj l) :
    noAdj (dropWhileEnd p l) :=
  noAdj_reverse (noAdj_dropWhile p l.reverse (noAdj_reverse h))

theorem headNonWS_dropWhile : ∀ l : List Char, headNonWS (l.dropWhile isWS) := by
  intro l
  induction l with
  | nil => intro c hc; cases hc
  | cons a rest ih =>
    by_cases ha : isWS a = true
    · rw [List.dropWhile_cons, if_pos ha]; exact ih
    · rw [List.dropWhile_cons, if_neg ha]
      intro c hc
      cases hc
      simpa using ha

theorem dropWhile_append_ex (p : Char → Bool) :
    ∀ l : List Char, ∃ t, t ++ l.dropWhile p = l := by
  intro l
  induction l with
  | nil => exact ⟨[], rfl⟩
  | cons a rest ih =>
    by_cases ha : p a = true
    · rcases ih with ⟨t, ht⟩
      exact ⟨a :: t, by rw [List.dropWhile_cons, if_pos ha, List.cons_append, ht]⟩
    · exact ⟨[], by rw [List.dropWhile_cons, if_neg ha]; rfl⟩

theorem dropWhileEnd_append_ex (p : Char → Bool) (l : List Char) :
    ∃ t, dropWhileEnd p l ++ t = l := by
  rcases dropWhile_append_ex p l.reverse with ⟨t, ht⟩
  refine ⟨t.reverse, ?_⟩
  unfold dropWhileEnd
  have := congrArg List.reverse ht
  rwa [List.reverse_append, List.reverse_reverse] at this

theorem headNonWS_dropWhileEnd (p : Char → Bool) (l : List Char) (h : headNonWS l) :
    headNonWS (dropWhileEnd p l) := by
  intro c hc
  rcases dropWhileEnd_append_ex p l with ⟨t, ht⟩
  cases hd : dropWhileEnd p l with
  | nil => rw [hd] at hc; cases hc
  | cons a w =>
    rw [hd] at hc ht
    cases hc
    exact h c (by rw [← ht]; rfl)

theorem lastNonWS_dropWhileEnd (l : List Char) : lastNonWS (dropWhileEnd isWS l) := by
  intro c hc
  unfold dropWhileEnd at hc
  rw [List.getLast?_reverse] at hc
  exact headNonWS_dropWhile l.reverse c hc

theorem stripL_wsSpace {l : List Char} (h : wsSpace l) : wsSpace (stripL l) := by
  intro c hc
  exact h c (mem_dropWhile_subset isWS l c (mem_dropWhileEnd_subset isWS _ c hc))

theorem stripL_noAdj {l : List Char} (h : noAdj l) : noAdj (stripL l) :=
  noAdj_dropWhileEnd isWS _ (noAdj_dropWhile isWS l h)

theorem stripL_headNonWS (l : List Char) : headNonWS (stripL l) :=
  headNonWS_dropWhileEnd isWS _ (headNonWS_dropWhile l)

theorem stripL_lastNonWS (l : List Char) : lastNonWS (stripL l) :=
  lastNonWS_dropWhileEnd _

theorem collapse_id :
    ∀ l : List Char, wsSpace l → noAdj l →
      collapseWS false l = l ∧ (headNonWS l → collapseWS true l = l) := by
  intro l
  induction l with
  | nil => intro _ _; exact ⟨rfl, fun _ => rfl⟩
  | cons c rest ih =>
    intro hws hadj
    have hws' : wsSpace rest := fun d hd h => hws d (List.mem_cons_of_mem _ hd) h
    have hadj' : noAdj rest := hadj.tail
    by_cases hc : isWS c = true
    · have hsp : c = ' ' := hws c (List.mem_cons_self _ _) hc
      have hhead : headNonWS rest := by
        cases rest with
        | nil => intro d hd; cases hd
        | cons d Y =>
          intro e he
          cases he
          rcases (List.chain'_cons.mp hadj).1 with h | h
          · rw [hc] at h; cases h
          · exact h
      constructor
      · rw [collapseWS_cons_ws_false rest hc, (ih hws' hadj').2 hhead, hsp]
      · intro hh
        exact absurd hc (by simpa using hh c rfl)
    · have hc' : isWS c = false := by simpa using hc
      constructor
      · rw [collapseWS_cons_nonws rest hc' false, (ih hws' hadj').1]
      · intro _
        rw [collapseWS_cons_nonws rest hc' true, (ih hws' hadj').1]

theorem dropWhile_id {l : List Char} (h : headNonWS l) : l.dropWhile isWS = l := by
  cases l with
  | nil => rfl
  | cons c rest =>
    rw [List.dropWhile_cons, if_neg (by simp [h c rfl])]

theorem dropWhileEnd_id {l : List Char} (h : lastNonWS l) : dropWhileEnd isWS l = l := by
  have hrev : headNonWS l.reverse := by
    intro c hc
    rw [List.head?_reverse] at hc
    exact h c hc
  unfold dropWhileEnd
  rw [dropWhile_id hrev, List.reverse_reverse]

theorem stripL_id {l : List Char} (h1 : headNonWS l) (h2 : lastNonWS l) :
    stripL l = l := by
  unfold stripL
  rw [dropWhile_id h1, dropWhileEnd_id h2]

/-- C9: function `clean_text` is idempotent — cleaning an already cleaned string
(newlines replaced, whitespace runs collapsed to single spaces, ends
trimmed) changes nothing. -/
theorem C9_clean_text_idempotent :
    ∀ s : String, clean_text (clean_text s) = clean_text s := by
  intro s
  show (⟨stripL (collapseWS false (mapNL (stripL (collapseWS false (mapNL s.data)))))⟩ : String)
      = ⟨stripL (collapseWS false (mapNL s.data))⟩
  have hws : wsSpace (stripL (collapseWS false (mapNL s.data))) :=
    stripL_wsSpace (collapse_wsSpace (mapNL s.data) false)
  have hadj : noAdj (stripL (collapseWS false (mapNL s.data))) :=
    stripL_noAdj ((collapse_noAdj_head (mapNL s.data)).1 false)
  have hhead : headNonWS (stripL (collapseWS false (mapNL s.data))) :=
    stripL_headNonWS _
  have hlast : lastNonWS (stripL (collapseWS false (mapNL s.data))) :=
    stripL_lastNonWS _
  rw [mapNL_eq_self (wsSpace_no_newline hws), (collapse_id _ hws hadj).1,
    stripL_id hhead hlast]

end Transcribe
